import Mathlib

/-!
# Verification of the hidg USB HID keyboard report engine

Shallow embedding of the event-to-report encoding engine of `hidg.go`:
the scancode/modifier translation tables, the 6-key-rollover report state
machine (`updateReport`), the serialized writer loop (`eventWriter`) and the
terminal-side event producer of `main`.

Go bytes are modelled as `Nat` (all stored values are below 256); the fixed
`[8]byte` report is a `List Nat` of length 8.  A Go panic (out-of-range index
or slice) is modelled by returning `none`.
-/

set_option maxRecDepth 8000

namespace Hidg

/-- The scancode → USB usage-ID table `mapping` of hidg.go (194 entries),
indexed by the input-layer key code.  Entry value 0 is the "unmapped"
sentinel. -/
def mapping : List Nat :=
  [3, 41, 30, 31, 32, 33, 34, 35, 36, 37, 38,
   39, 45, 46, 42, 43, 20, 26, 8, 21, 23, 28, 24, 12, 18, 19,
   47, 48, 40, 224, 4, 22, 7, 9, 10, 11, 13, 14, 15, 51, 52,
   53, 225, 50, 29, 27, 6, 25, 5, 17, 16, 54, 55, 56, 229, 85,
   226, 44, 57, 58, 59, 60, 61, 62, 63, 64, 65, 66, 67, 83,
   71, 95, 96, 97, 86, 92, 93, 94, 87, 89, 90, 91, 98, 99, 0,
   148, 100, 68, 69, 135, 146, 147, 138, 136, 139, 140, 88, 228,
   84, 70, 230, 0, 74, 82, 75, 80, 79, 77, 81, 78, 73, 76, 0,
   239, 238, 237, 102, 103, 0, 72, 0, 133, 144, 145, 137, 227,
   231, 101, 243, 121, 118, 122, 119, 124, 116, 125, 244, 123,
   117, 0, 251, 0, 248, 0, 0, 0, 0, 0, 0, 0, 240, 0,
   249, 0, 0, 0, 0, 0, 241, 242, 0, 236, 0, 235, 232, 234,
   233, 0, 0, 0, 0, 0, 0, 250, 0, 0, 247, 245, 246, 182,
   183, 0, 0, 104, 105, 106, 107, 108, 109, 110, 111, 112, 113,
   114]

/-- The modifier table `kb_mod` of hidg.go: key code → modifier bit mask.
A Go map lookup never fails; a missing key yields the zero value. -/
def kb_mod (code : Nat) : Nat :=
  if code = 29 then 0x01        -- left-ctrl
  else if code = 97 then 0x10   -- right-ctrl
  else if code = 42 then 0x02   -- left-shift
  else if code = 54 then 0x20   -- right-shift
  else if code = 56 then 0x04   -- left-alt
  else if code = 100 then 0x40  -- right-alt
  else if code = 125 then 0x08  -- left-meta
  else if code = 126 then 0x80  -- right-meta
  else 0

/-- evdev event type for key events (Linux EV_KEY). -/
def EvKeys : Nat := 1

/-- An evdev event: `{Type, Code, Value}`; `Value` 1 is key-down, 0 key-up. -/
structure Event where
  type : Nat
  code : Nat
  value : Nat
deriving DecidableEq, Repr

/-- The mutable state of a `UsbHid` instance: the 8-byte report and the
`keys` counter of active non-modifier keys (bytes 2..7 of the report). -/
structure UsbHid where
  report : List Nat
  keys : Nat
deriving DecidableEq, Repr

/-- The zeroed state a session starts from (`new(UsbHid)`). -/
def initState : UsbHid := ⟨List.replicate 8 0, 0⟩

/-- The search loop of `updateReport` over the active slice
`report[2 : 2+keys]`: index of the first occurrence of `u`, or `none`. -/
def findKeyPos (u : Nat) : List Nat → Option Nat
  | [] => none
  | c :: rest => if c = u then some 0 else (findKeyPos u rest).map (· + 1)

/-- The active slice `report[2 : 2+keys]` that `updateReport` searches. -/
def activeSlice (hid : UsbHid) : List Nat :=
  (hid.report.drop 2).take hid.keys

/-- `updateReport` of hidg.go.  `none` models a Go panic: indexing
`mapping[ev.Code]` out of range, or taking the slice `report[2:2+keys]`
with `2+keys > 8`.  All other array accesses are in range whenever those
two checks pass.  Byte operations are on `Nat`; `x &^ m` on bytes is
`x &&& (255 ^^^ m)`. -/
def updateReport (hid : UsbHid) (ev : Event) : Option UsbHid :=
  if ev.type = EvKeys then
    if kb_mod ev.code ≠ 0 then
      -- ev.Code is a modifier
      if ev.value ≠ 0 then
        some ⟨hid.report.set 0 (hid.report.getD 0 0 ||| kb_mod ev.code), hid.keys⟩
      else
        some ⟨hid.report.set 0 (hid.report.getD 0 0 &&& (255 ^^^ kb_mod ev.code)), hid.keys⟩
    else
      -- ev.Code is a normal key
      match mapping[ev.code]? with
      | none => none
      | some u =>
        if u = 0 then
          -- warning printed; state unchanged
          some hid
        else if 2 + hid.keys > 8 then none
        else
          match findKeyPos u (activeSlice hid) with
          | some keyPos =>
            if ev.value = 0 then
              -- remove by swap-with-last
              let r1 := if keyPos < hid.keys
                then hid.report.set (keyPos + 2) (hid.report.getD (hid.keys + 1) 0)
                else hid.report
              some ⟨r1.set (hid.keys + 1) 0, hid.keys - 1⟩
            else
              some hid
          | none =>
            if hid.keys < 8 - 2 then
              some ⟨hid.report.set (2 + hid.keys) u, hid.keys + 1⟩
            else
              some ⟨hid.report.set (8 - 1) u, hid.keys⟩
  else
    some hid

/-- Apply a list of events in order (the writer feeds them one at a time). -/
def applyEvents (s : UsbHid) : List Event → Option UsbHid
  | [] => some s
  | ev :: rest =>
    match updateReport s ev with
    | none => none
    | some s' => applyEvents s' rest

/-- A key-down event for a code. -/
def keyDown (c : Nat) : Event := ⟨EvKeys, c, 1⟩

/-- A key-up event for a code. -/
def keyUp (c : Nat) : Event := ⟨EvKeys, c, 0⟩

/-- The worker loop `eventWriter` of hidg.go, run on a list of inbound
events.  `accept k` is the byte count the device write returns for the k-th
write attempt.  The result is `none` on a panic inside `updateReport`, and
otherwise the final state, the list of reports that were written in full and
then flushed (`file.Sync`), and a flag that is `true` when the loop
terminated early because a write accepted fewer than 8 bytes. -/
def eventWriter (hid : UsbHid) (accept : Nat → Nat) :
    List Event → Nat → Option (UsbHid × List (List Nat) × Bool)
  | [], _ => some (hid, [], false)
  | ev :: rest, k =>
    match updateReport hid ev with
    | none => none
    | some s =>
      if accept k ≠ 8 then
        -- short write: print error and return, no flush, no further events
        some (s, [], true)
      else
        match eventWriter s accept rest (k + 1) with
        | none => none
        | some (sf, fl, e) => some (sf, s.report :: fl, e)

/-!
## The event producer of `main`

The terminal tables of hidg.go map a tcell rune (here its code point as a
`Nat`) to an evdev key code.  The evdev `Key...` constants are the standard
Linux input-event codes; the named tcell `Key...` constants are tcell v1 key
codes (KeyBackspace 8, KeyTAB 9, KeyEnter 13, KeyEsc 27, KeyBackspace2 127,
KeyUp 257, KeyDown 258, KeyRight 259, KeyLeft 260). -/

/-- The base table `tcelltoev` of hidg.go.  A Go map read without the
comma-ok form yields the zero value 0 for a missing key. -/
def tcelltoev (r : Nat) : Nat :=
  if r = 48 then 11          -- '0' → Key0
  else if r = 49 then 2      -- '1' → Key1
  else if r = 50 then 3      -- '2' → Key2
  else if r = 51 then 4      -- '3' → Key3
  else if r = 52 then 5      -- '4' → Key4
  else if r = 53 then 6      -- '5' → Key5
  else if r = 54 then 7      -- '6' → Key6
  else if r = 55 then 8      -- '7' → Key7
  else if r = 56 then 9      -- '8' → Key8
  else if r = 57 then 10     -- '9' → Key9
  else if r = 97 then 30     -- 'a' → KeyA
  else if r = 98 then 48     -- 'b' → KeyB
  else if r = 99 then 46     -- 'c' → KeyC
  else if r = 100 then 32    -- 'd' → KeyD
  else if r = 101 then 18    -- 'e' → KeyE
  else if r = 102 then 33    -- 'f' → KeyF
  else if r = 103 then 34    -- 'g' → KeyG
  else if r = 104 then 35    -- 'h' → KeyH
  else if r = 105 then 23    -- 'i' → KeyI
  else if r = 106 then 36    -- 'j' → KeyJ
  else if r = 107 then 37    -- 'k' → KeyK
  else if r = 108 then 38    -- 'l' → KeyL
  else if r = 109 then 50    -- 'm' → KeyM
  else if r = 110 then 49    -- 'n' → KeyN
  else if r = 111 then 24    -- 'o' → KeyO
  else if r = 112 then 25    -- 'p' → KeyP
  else if r = 113 then 16    -- 'q' → KeyQ
  else if r = 114 then 19    -- 'r' → KeyR
  else if r = 115 then 31    -- 's' → KeyS
  else if r = 116 then 20    -- 't' → KeyT
  else if r = 117 then 22    -- 'u' → KeyU
  else if r = 118 then 47    -- 'v' → KeyV
  else if r = 119 then 17    -- 'w' → KeyW
  else if r = 120 then 45    -- 'x' → KeyX
  else if r = 121 then 21    -- 'y' → KeyY
  else if r = 122 then 44    -- 'z' → KeyZ
  else if r = 32 then 57     -- ' ' → KeySpace
  else if r = 61 then 13     -- = → KeyEqual
  else if r = 44 then 51     -- comma → KeyComma
  else if r = 46 then 52     -- . → KeyDot
  else if r = 91 then 26     -- [ → KeyLeftBrace
  else if r = 93 then 27     -- ] → KeyRightBrace
  else if r = 59 then 39     -- semicolon → KeySemiColon
  else if r = 39 then 40     -- apostrophe → KeyApostrophe
  else if r = 47 then 53     -- / → KeySlash
  else if r = 92 then 43     -- backslash → KeyBackSlash
  else if r = 127 then 14    -- tcell.KeyBackspace2 → KeyBackSpace
  else if r = 8 then 14      -- tcell.KeyBackspace → KeyBackSpace
  else if r = 13 then 28     -- tcell.KeyEnter → KeyEnter
  else if r = 257 then 103   -- tcell.KeyUp → KeyUp
  else if r = 258 then 108   -- tcell.KeyDown → KeyDown
  else if r = 260 then 105   -- tcell.KeyLeft → KeyLeft
  else if r = 259 then 106   -- tcell.KeyRight → KeyRight
  else if r = 9 then 15      -- tcell.KeyTAB → KeyTab
  else if r = 27 then 1      -- tcell.KeyEsc → KeyEscape
  else 0

/-- The control-chord table `tcellctrltoev` of hidg.go: tcell reports
Ctrl-A..Ctrl-Z as runes 1..26; each maps to the base letter's key code.
Read without comma-ok, so a miss yields 0. -/
def tcellctrltoev (r : Nat) : Nat :=
  if r = 1 then 30           -- Ctrl-A → KeyA
  else if r = 2 then 48      -- Ctrl-B → KeyB
  else if r = 3 then 46      -- Ctrl-C → KeyC
  else if r = 4 then 32      -- Ctrl-D → KeyD
  else if r = 5 then 18      -- Ctrl-E → KeyE
  else if r = 6 then 33      -- Ctrl-F → KeyF
  else if r = 7 then 34      -- Ctrl-G → KeyG
  else if r = 8 then 35      -- Ctrl-H → KeyH
  else if r = 9 then 23      -- Ctrl-I → KeyI
  else if r = 10 then 36     -- Ctrl-J → KeyJ
  else if r = 11 then 37     -- Ctrl-K → KeyK
  else if r = 12 then 38     -- Ctrl-L → KeyL
  else if r = 13 then 50     -- Ctrl-M → KeyM
  else if r = 14 then 49     -- Ctrl-N → KeyN
  else if r = 15 then 24     -- Ctrl-O → KeyO
  else if r = 16 then 25     -- Ctrl-P → KeyP
  else if r = 17 then 16     -- Ctrl-Q → KeyQ
  else if r = 18 then 19     -- Ctrl-R → KeyR
  else if r = 19 then 31     -- Ctrl-S → KeyS
  else if r = 20 then 20     -- Ctrl-T → KeyT
  else if r = 21 then 22     -- Ctrl-U → KeyU
  else if r = 22 then 47     -- Ctrl-V → KeyV
  else if r = 23 then 17     -- Ctrl-W → KeyW
  else if r = 24 then 45     -- Ctrl-X → KeyX
  else if r = 25 then 21     -- Ctrl-Y → KeyY
  else if r = 26 then 44     -- Ctrl-Z → KeyZ
  else 0

/-- The shifted-punctuation table `tcellshiftokey` of hidg.go, read with the
comma-ok form, so a miss is observable: `none`. -/
def tcellshiftokey (r : Nat) : Option Nat :=
  if r = 33 then some 2      -- ! → Key1
  else if r = 64 then some 3   -- @ → Key2
  else if r = 35 then some 4   -- # → Key3
  else if r = 36 then some 5   -- dollar → Key4
  else if r = 37 then some 6   -- percent → Key5
  else if r = 94 then some 7   -- caret → Key6
  else if r = 38 then some 8   -- & → Key7
  else if r = 42 then some 9   -- * → Key8
  else if r = 40 then some 10  -- ( → Key9
  else if r = 41 then some 11  -- ) → Key0
  else if r = 95 then some 12  -- _ → KeyMinus
  else if r = 43 then some 13  -- + → KeyEqual
  else if r = 123 then some 26 -- left brace → KeyLeftBrace
  else if r = 125 then some 27 -- right brace → KeyRightBrace
  else if r = 34 then some 40  -- double quote → KeyApostrophe
  else if r = 47 then some 53  -- / → KeySlash
  else if r = 60 then some 51  -- < → KeyComma
  else if r = 62 then some 52  -- > → KeyDot
  else if r = 124 then some 43 -- | → KeyBackSlash
  else none

/-- The `*tcell.EventKey` branch of `main` in hidg.go: the sequence of
events forwarded to the writer for one logical keystroke `pressedkey`
(the event's rune) given whether the control modifier is reported held.
Key codes 29 and 42 are evdev KeyLeftCtrl and KeyLeftShift. -/
def produceEvents (pressedkey : Nat) (ctrl : Bool) : List Event :=
  if ctrl then
    [⟨EvKeys, 29, 1⟩,
     ⟨EvKeys, tcellctrltoev pressedkey, 1⟩,
     ⟨EvKeys, tcellctrltoev pressedkey, 0⟩,
     ⟨EvKeys, 29, 0⟩]
  else
    match tcellshiftokey pressedkey with
    | some k =>
      [⟨EvKeys, 42, 1⟩, ⟨EvKeys, k, 1⟩, ⟨EvKeys, k, 0⟩, ⟨EvKeys, 42, 0⟩]
    | none =>
      if 65 ≤ pressedkey ∧ pressedkey ≤ 90 then
        -- uppercase letter: shift-bracket the lowercase letter's code
        [⟨EvKeys, 42, 1⟩,
         ⟨EvKeys, tcelltoev (pressedkey + 32), 1⟩,
         ⟨EvKeys, tcelltoev (pressedkey + 32), 0⟩,
         ⟨EvKeys, 42, 0⟩]
      else
        [⟨EvKeys, tcelltoev pressedkey, 1⟩, ⟨EvKeys, tcelltoev pressedkey, 0⟩]

/-- The ReportState invariant of the spec: 8 report bytes, `keys ≤ 6`,
reserved byte 1 zero, the active slots `[2, 2+keys)` hold non-zero usage
IDs, the remaining key slots are zero — plus pairwise distinctness of the
active slots, which also holds in every reachable state. -/
def Inv (s : UsbHid) : Prop :=
  s.report.length = 8 ∧ s.keys ≤ 6 ∧ s.report.getD 1 0 = 0 ∧
  (∀ i, i < s.keys → s.report.getD (2 + i) 0 ≠ 0) ∧
  (∀ i, s.keys ≤ i → i < 6 → s.report.getD (2 + i) 0 = 0) ∧
  (activeSlice s).Nodup

/-- The multiset of non-zero bytes among report bytes 2–7: the set of
currently reported pressed keys. -/
def pressedUsages (s : UsbHid) : Multiset Nat :=
  ((s.report.drop 2).filter (fun b => decide (b ≠ 0)) : List Nat)

/-! ## Helper lemmas -/

theorem findKeyPos_eq_none {u : Nat} {l : List Nat} (h : u ∉ l) :
    findKeyPos u l = none := by
  induction l with
  | nil => rfl
  | cons c rest ih =>
    simp only [List.mem_cons, not_or] at h
    simp [findKeyPos, Ne.symm h.1, ih h.2]

theorem findKeyPos_append_self {u : Nat} {l : List Nat} (h : u ∉ l) :
    findKeyPos u (l ++ [u]) = some l.length := by
  induction l with
  | nil => simp [findKeyPos]
  | cons c rest ih =>
    simp only [List.mem_cons, not_or] at h
    simp [findKeyPos, Ne.symm h.1, ih h.2]

theorem findKeyPos_some_lt {u : Nat} {l : List Nat} {j : Nat}
    (h : findKeyPos u l = some j) : j < l.length := by
  induction l generalizing j with
  | nil => simp [findKeyPos] at h
  | cons c rest ih =>
    simp only [findKeyPos] at h
    split at h
    · cases h
      simp
    · rw [Option.map_eq_some'] at h
      obtain ⟨j', hj', rfl⟩ := h
      have := ih hj'
      simp only [List.length_cons]
      omega

theorem findKeyPos_some_getElem {u : Nat} {l : List Nat} {j : Nat}
    (h : findKeyPos u l = some j) : l[j]? = some u := by
  induction l generalizing j with
  | nil => simp [findKeyPos] at h
  | cons c rest ih =>
    simp only [findKeyPos] at h
    split at h
    · rename_i hc
      cases h
      simp [hc]
    · rw [Option.map_eq_some'] at h
      obtain ⟨j', hj', rfl⟩ := h
      simpa using ih hj'

theorem set_of_getElem?_eq {l : List Nat} {i : Nat} {v : Nat}
    (h : l[i]? = some v) : l.set i v = l := by
  induction l generalizing i with
  | nil => rfl
  | cons c rest ih =>
    cases i with
    | zero => simp_all
    | succ i => simp_all [List.set_cons_succ]

/-- `updateReport` never changes the length of the report. -/
theorem updateReport_length {s s' : UsbHid} {ev : Event}
    (h : updateReport s ev = some s') : s'.report.length = s.report.length := by
  unfold updateReport at h
  split at h
  · split at h
    · split at h <;> (injection h with h; subst h; simp)
    · split at h
      · exact absurd h (by simp)
      · rename_i u hu
        split at h
        · injection h with h; subst h; rfl
        · split at h
          · exact absurd h (by simp)
          · split at h
            · split at h
              · injection h with h; subst h
                split <;> simp
              · injection h with h; subst h; rfl
            · split at h <;> (injection h with h; subst h; simp)
  · injection h with h; subst h; rfl

/-- Step lemma: a `Down` for a mapped, non-modifier, not-yet-active key with
room left appends its usage ID to the active slots. -/
theorem updateReport_down_insert {s : UsbHid} {c u : Nat}
    (hmod : kb_mod c = 0) (hmap : mapping[c]? = some u) (hnz : u ≠ 0)
    (hlt : s.keys < 6)
    (hfind : findKeyPos u (activeSlice s) = none) :
    updateReport s (keyDown c) = some ⟨s.report.set (2 + s.keys) u, s.keys + 1⟩ := by
  have h8 : ¬ (8 : Nat) < 2 + s.keys := by omega
  simp [updateReport, keyDown, EvKeys, hmod, hmap, hnz, hfind, h8, hlt]

/-- Step lemma: a `Down` for a mapped, non-modifier, not-yet-active key at
capacity overwrites the last slot without touching `keys`. -/
theorem updateReport_down_overflow {s : UsbHid} {c u : Nat}
    (hmod : kb_mod c = 0) (hmap : mapping[c]? = some u) (hnz : u ≠ 0)
    (hk : s.keys = 6)
    (hfind : findKeyPos u (activeSlice s) = none) :
    updateReport s (keyDown c) = some ⟨s.report.set 7 u, s.keys⟩ := by
  have h8 : ¬ (8 : Nat) < 2 + s.keys := by omega
  have hge : ¬ s.keys < 8 - 2 := by omega
  simp [updateReport, keyDown, EvKeys, hmod, hmap, hnz, hfind, h8, hge]

/-- Step lemma: a `Down` for a key already in the active slots is a no-op. -/
theorem updateReport_down_found {s : UsbHid} {c u j : Nat}
    (hmod : kb_mod c = 0) (hmap : mapping[c]? = some u) (hnz : u ≠ 0)
    (hk : s.keys ≤ 6)
    (hfind : findKeyPos u (activeSlice s) = some j) :
    updateReport s (keyDown c) = some s := by
  have h8 : ¬ (8 : Nat) < 2 + s.keys := by omega
  simp [updateReport, keyDown, EvKeys, hmod, hmap, hnz, hfind, h8]

/-- Step lemma: an `Up` for a key found at index `j` of the active slice
removes it by swap-with-last (the code's guard `keyPos < keys` always holds
there). -/
theorem updateReport_up_found {s : UsbHid} {c u j : Nat}
    (hmod : kb_mod c = 0) (hmap : mapping[c]? = some u) (hnz : u ≠ 0)
    (hk : s.keys ≤ 6)
    (hfind : findKeyPos u (activeSlice s) = some j) :
    updateReport s (keyUp c) =
      some ⟨(s.report.set (j + 2) (s.report.getD (s.keys + 1) 0)).set (s.keys + 1) 0,
            s.keys - 1⟩ := by
  have h8 : ¬ (8 : Nat) < 2 + s.keys := by omega
  have hj : j < s.keys := by
    have h1 := findKeyPos_some_lt hfind
    have h2 : (activeSlice s).length ≤ s.keys := by
      simp [activeSlice]
    omega
  simp [updateReport, keyUp, EvKeys, hmod, hmap, hnz, hfind, h8, hj]

/-! ## Claims -/

/-- C1 (code bug): releasing a key that is not currently tracked is NOT a
no-op.  The not-found branch of `updateReport` does not test `ev.Value`, so
an `Up` event for the untracked key code 35 (usage ID 11) from the zeroed
state inserts usage 11 into slot 2 and sets `keys` to 1, where the spec
requires the report and `activeKeys` to stay unchanged. -/
theorem c1_untracked_up_inserts_key :
    updateReport initState ⟨EvKeys, 35, 0⟩ =
      some ⟨[0, 0, 11, 0, 0, 0, 0, 0], 1⟩ := by decide

/-- C2 (counterexample): the scancode lookup is not total over all key
codes.  `mapping` has 194 entries, and `updateReport` on a non-modifier key
event with code 194 indexes `mapping` out of range — a Go panic, modelled
as `none`. -/
theorem c2_lookup_aborts_out_of_range :
    updateReport initState ⟨EvKeys, 194, 1⟩ = none ∧ mapping.length = 194 := by
  decide

/-- C2 (amended): for every key code below the table length 194 (and any
state whose key counter is in range, as every reachable state's is), the
table lookups are total: `updateReport` returns a value and never aborts;
absence of a USB equivalent is signalled by the zero sentinel entry, and the
modifier-table lookup `kb_mod` is total over all codes. -/
theorem c2_lookup_total_in_range (s : UsbHid) (ev : Event)
    (hcode : ev.code < mapping.length) (hkeys : s.keys ≤ 6) :
    (updateReport s ev).isSome := by
  have hget : mapping[ev.code]? = some mapping[ev.code] :=
    List.getElem?_eq_getElem hcode
  unfold updateReport
  repeat' split
  all_goals first
    | rfl
    | omega
    | (rename_i heq; rw [hget] at heq; cases heq)

/-- C2 witness: the amended totality theorem applied at code 30 in the
zeroed state. -/
theorem c2_lookup_total_witness : (updateReport initState ⟨EvKeys, 30, 1⟩).isSome :=
  c2_lookup_total_in_range initState ⟨EvKeys, 30, 1⟩ (by decide) (by decide)

/-- C4: a key event whose code maps to the usage-ID sentinel 0 leaves the
whole state (all 8 report bytes and the key counter) unchanged; the warning
path returns normally, it never fails. -/
theorem c4_unmapped_code_noop (s : UsbHid) (ev : Event)
    (htype : ev.type = EvKeys) (hmod : kb_mod ev.code = 0)
    (hmap : mapping[ev.code]? = some 0) :
    updateReport s ev = some s := by
  simp [updateReport, htype, hmod, hmap]

/-- C4 witness: code 84 is a non-modifier code with `mapping` entry 0. -/
theorem c4_unmapped_code_noop_witness :
    updateReport initState ⟨EvKeys, 84, 1⟩ = some initState :=
  c4_unmapped_code_noop initState ⟨EvKeys, 84, 1⟩ rfl (by decide) (by decide)

/-- C7: modifier events are idempotent: a `Down` for a modifier code leads
to a state that is a fixed point of the same `Down` (so applying it twice
gives the same modifier byte as once), likewise for `Up`; both leave
bytes 1–7 (the tail of the report) and the key counter untouched. -/
theorem c7_modifier_idempotent (s : UsbHid) (c : Nat) (hmod : kb_mod c ≠ 0) :
    (∃ s₁, updateReport s (keyDown c) = some s₁ ∧
       updateReport s₁ (keyDown c) = some s₁ ∧
       s₁.keys = s.keys ∧ s₁.report.tail = s.report.tail) ∧
    (∃ s₂, updateReport s (keyUp c) = some s₂ ∧
       updateReport s₂ (keyUp c) = some s₂ ∧
       s₂.keys = s.keys ∧ s₂.report.tail = s.report.tail) := by
  constructor
  · refine ⟨⟨s.report.set 0 (s.report.getD 0 0 ||| kb_mod c), s.keys⟩, ?_, ?_, rfl, ?_⟩
    · simp [updateReport, keyDown, EvKeys, hmod]
    · cases s.report with
      | nil => simp [updateReport, keyDown, EvKeys, hmod]
      | cons b t =>
        simp [updateReport, keyDown, EvKeys, hmod, Nat.or_assoc, Nat.or_self]
    · cases s.report <;> simp
  · refine ⟨⟨s.report.set 0 (s.report.getD 0 0 &&& (255 ^^^ kb_mod c)), s.keys⟩,
      ?_, ?_, rfl, ?_⟩
    · simp [updateReport, keyUp, EvKeys, hmod]
    · cases s.report with
      | nil => simp [updateReport, keyUp, EvKeys, hmod]
      | cons b t =>
        simp [updateReport, keyUp, EvKeys, hmod, Nat.and_assoc, Nat.and_self]
    · cases s.report <;> simp

/-- C7 witness: the idempotence theorem applied to the left-ctrl code 29 in
the zeroed state: the once-pressed (resp. once-released) state is a fixed
point of the same event. -/
theorem c7_modifier_idempotent_witness :
    updateReport ⟨[1, 0, 0, 0, 0, 0, 0, 0], 0⟩ (keyDown 29) =
      some ⟨[1, 0, 0, 0, 0, 0, 0, 0], 0⟩ ∧
    updateReport ⟨[0, 0, 0, 0, 0, 0, 0, 0], 0⟩ (keyUp 29) =
      some ⟨[0, 0, 0, 0, 0, 0, 0, 0], 0⟩ := by
  obtain ⟨⟨s₁, h1, h2, -, -⟩, ⟨s₂, h3, h4, -, -⟩⟩ :=
    c7_modifier_idempotent initState 29 (by decide)
  constructor
  · have hc : updateReport initState (keyDown 29) =
        some ⟨[1, 0, 0, 0, 0, 0, 0, 0], 0⟩ := by decide
    have e : s₁ = ⟨[1, 0, 0, 0, 0, 0, 0, 0], 0⟩ :=
      Option.some.inj (h1.symm.trans hc)
    rw [e] at h2
    exact h2
  · have hc : updateReport initState (keyUp 29) =
        some ⟨[0, 0, 0, 0, 0, 0, 0, 0], 0⟩ := by decide
    have e : s₂ = ⟨[0, 0, 0, 0, 0, 0, 0, 0], 0⟩ :=
      Option.some.inj (h3.symm.trans hc)
    rw [e] at h4
    exact h4

end Hidg

namespace Hidg

/-- C5: from the zeroed state, `Down` events for 6 distinct mapped
non-modifier codes with distinct non-zero usage IDs fill bytes 2–7 with
exactly those usage IDs (in insertion order) and leave `keys = 6`; a 7th
distinct `Down` keeps `keys = 6` and overwrites byte 7 only, with no
error. -/
theorem c5_rollover_capacity (c₁ c₂ c₃ c₄ c₅ c₆ c₇ u₁ u₂ u₃ u₄ u₅ u₆ u₇ : Nat)
    (hc₁ : kb_mod c₁ = 0) (hc₂ : kb_mod c₂ = 0) (hc₃ : kb_mod c₃ = 0)
    (hc₄ : kb_mod c₄ = 0) (hc₅ : kb_mod c₅ = 0) (hc₆ : kb_mod c₆ = 0)
    (hc₇ : kb_mod c₇ = 0)
    (hu₁ : mapping[c₁]? = some u₁) (hu₂ : mapping[c₂]? = some u₂)
    (hu₃ : mapping[c₃]? = some u₃) (hu₄ : mapping[c₄]? = some u₄)
    (hu₅ : mapping[c₅]? = some u₅) (hu₆ : mapping[c₆]? = some u₆)
    (hu₇ : mapping[c₇]? = some u₇)
    (hnd : List.Nodup [u₁, u₂, u₃, u₄, u₅, u₆, u₇])
    (hnz : (0 : Nat) ∉ [u₁, u₂, u₃, u₄, u₅, u₆, u₇]) :
    applyEvents initState
        [keyDown c₁, keyDown c₂, keyDown c₃, keyDown c₄, keyDown c₅, keyDown c₆] =
      some ⟨[0, 0, u₁, u₂, u₃, u₄, u₅, u₆], 6⟩ ∧
    applyEvents initState
        [keyDown c₁, keyDown c₂, keyDown c₃, keyDown c₄, keyDown c₅, keyDown c₆,
         keyDown c₇] =
      some ⟨[0, 0, u₁, u₂, u₃, u₄, u₅, u₇], 6⟩ := by
  simp only [List.nodup_cons, List.mem_cons, List.not_mem_nil, or_false, not_or,
    List.nodup_nil, and_true] at hnd
  obtain ⟨⟨h12, h13, h14, h15, h16, h17⟩, ⟨h23, h24, h25, h26, h27⟩,
    ⟨h34, h35, h36, h37⟩, ⟨h45, h46, h47⟩, ⟨h56, h57⟩, h67, -⟩ := hnd
  simp only [List.mem_cons, List.not_mem_nil, or_false, not_or] at hnz
  obtain ⟨hz1, hz2, hz3, hz4, hz5, hz6, hz7⟩ := hnz
  have d1 : updateReport initState (keyDown c₁) =
      some ⟨[0, 0, u₁, 0, 0, 0, 0, 0], 1⟩ := by
    rw [updateReport_down_insert (s := initState) hc₁ hu₁ (Ne.symm hz1)
      (show (0 : Nat) < 6 by decide)
      (findKeyPos_eq_none (show u₁ ∉ ([] : List Nat) by simp))]
    rfl
  have d2 : updateReport ⟨[0, 0, u₁, 0, 0, 0, 0, 0], 1⟩ (keyDown c₂) =
      some ⟨[0, 0, u₁, u₂, 0, 0, 0, 0], 2⟩ := by
    rw [updateReport_down_insert (s := ⟨[0, 0, u₁, 0, 0, 0, 0, 0], 1⟩) hc₂ hu₂
      (Ne.symm hz2) (show (1 : Nat) < 6 by decide)
      (findKeyPos_eq_none (show u₂ ∉ [u₁] by simp [Ne.symm h12]))]
    rfl
  have d3 : updateReport ⟨[0, 0, u₁, u₂, 0, 0, 0, 0], 2⟩ (keyDown c₃) =
      some ⟨[0, 0, u₁, u₂, u₃, 0, 0, 0], 3⟩ := by
    rw [updateReport_down_insert (s := ⟨[0, 0, u₁, u₂, 0, 0, 0, 0], 2⟩) hc₃ hu₃
      (Ne.symm hz3) (show (2 : Nat) < 6 by decide)
      (findKeyPos_eq_none (show u₃ ∉ [u₁, u₂] by
        simp [Ne.symm h13, Ne.symm h23]))]
    rfl
  have d4 : updateReport ⟨[0, 0, u₁, u₂, u₃, 0, 0, 0], 3⟩ (keyDown c₄) =
      some ⟨[0, 0, u₁, u₂, u₃, u₄, 0, 0], 4⟩ := by
    rw [updateReport_down_insert (s := ⟨[0, 0, u₁, u₂, u₃, 0, 0, 0], 3⟩) hc₄ hu₄
      (Ne.symm hz4) (show (3 : Nat) < 6 by decide)
      (findKeyPos_eq_none (show u₄ ∉ [u₁, u₂, u₃] by
        simp [Ne.symm h14, Ne.symm h24, Ne.symm h34]))]
    rfl
  have d5 : updateReport ⟨[0, 0, u₁, u₂, u₃, u₄, 0, 0], 4⟩ (keyDown c₅) =
      some ⟨[0, 0, u₁, u₂, u₃, u₄, u₅, 0], 5⟩ := by
    rw [updateReport_down_insert (s := ⟨[0, 0, u₁, u₂, u₃, u₄, 0, 0], 4⟩) hc₅ hu₅
      (Ne.symm hz5) (show (4 : Nat) < 6 by decide)
      (findKeyPos_eq_none (show u₅ ∉ [u₁, u₂, u₃, u₄] by
        simp [Ne.symm h15, Ne.symm h25, Ne.symm h35, Ne.symm h45]))]
    rfl
  have d6 : updateReport ⟨[0, 0, u₁, u₂, u₃, u₄, u₅, 0], 5⟩ (keyDown c₆) =
      some ⟨[0, 0, u₁, u₂, u₃, u₄, u₅, u₆], 6⟩ := by
    rw [updateReport_down_insert (s := ⟨[0, 0, u₁, u₂, u₃, u₄, u₅, 0], 5⟩) hc₆ hu₆
      (Ne.symm hz6) (show (5 : Nat) < 6 by decide)
      (findKeyPos_eq_none (show u₆ ∉ [u₁, u₂, u₃, u₄, u₅] by
        simp [Ne.symm h16, Ne.symm h26, Ne.symm h36, Ne.symm h46, Ne.symm h56]))]
    rfl
  have d7 : updateReport ⟨[0, 0, u₁, u₂, u₃, u₄, u₅, u₆], 6⟩ (keyDown c₇) =
      some ⟨[0, 0, u₁, u₂, u₃, u₄, u₅, u₇], 6⟩ := by
    rw [updateReport_down_overflow (s := ⟨[0, 0, u₁, u₂, u₃, u₄, u₅, u₆], 6⟩)
      hc₇ hu₇ (Ne.symm hz7) rfl
      (findKeyPos_eq_none (show u₇ ∉ [u₁, u₂, u₃, u₄, u₅, u₆] by
        simp [Ne.symm h17, Ne.symm h27, Ne.symm h37, Ne.symm h47, Ne.symm h57,
          Ne.symm h67]))]
    rfl
  constructor
  · simp only [applyEvents, d1, d2, d3, d4, d5, d6]
  · simp only [applyEvents, d1, d2, d3, d4, d5, d6, d7]

/-- C5 witness: the rollover theorem at the concrete codes 2–8, whose usage
IDs are 30–36. -/
theorem c5_rollover_capacity_witness :
    applyEvents initState
        [keyDown 2, keyDown 3, keyDown 4, keyDown 5, keyDown 6, keyDown 7] =
      some ⟨[0, 0, 30, 31, 32, 33, 34, 35], 6⟩ ∧
    applyEvents initState
        [keyDown 2, keyDown 3, keyDown 4, keyDown 5, keyDown 6, keyDown 7,
         keyDown 8] =
      some ⟨[0, 0, 30, 31, 32, 33, 34, 36], 6⟩ :=
  c5_rollover_capacity 2 3 4 5 6 7 8 30 31 32 33 34 35 36
    (by decide) (by decide) (by decide) (by decide) (by decide) (by decide)
    (by decide) (by decide) (by decide) (by decide) (by decide) (by decide)
    (by decide) (by decide) (by decide) (by decide)

end Hidg

namespace Hidg

/-- C3 (counterexample): the rune 126 (a tilde, found in no producer table)
does yield a `Down`/`Up` pair on the sentinel code 0, but the pair is NOT
silently dropped: `mapping[0] = 3`, so with 6 keys active the `Down`
overwrites slot 7 with usage 3 and the `Up` then removes it, leaving a
changed report and `keys = 5`. -/
theorem c3_unmapped_pair_changes_state :
    produceEvents 126 false = [keyDown 0, keyUp 0] ∧
    applyEvents ⟨[0, 0, 30, 31, 32, 33, 34, 35], 6⟩ (produceEvents 126 false) =
      some ⟨[0, 0, 30, 31, 32, 33, 34, 0], 5⟩ ∧
    (⟨[0, 0, 30, 31, 32, 33, 34, 0], 5⟩ : UsbHid) ≠
      ⟨[0, 0, 30, 31, 32, 33, 34, 35], 6⟩ := by
  decide

/-- C3 (amended): every input symbol found in no applicable producer table
— with control held, a rune missing from the control table; otherwise a
rune missing from the shifted table, not an uppercase letter, and missing
from the base table — yields a `Down`/`Up` pair on the sentinel code 0
(bracketed by the control pulse in the first case).  Since
`mapping[0] = 3 ≠ 0`, the pair is NOT handled by the unmapped-code path:
the `Down` inserts usage 3 into the report and the `Up` removes it again,
so from any state with fewer than 6 active keys, usage 3 inactive and the
next slot zero, the pair's net effect restores the initial state — but the
intermediate report (the one written to the device between the two events)
shows usage 3 pressed. -/
theorem c3_unmapped_pair_net_noop (s : UsbHid)
    (hlen : s.report.length = 8) (hk : s.keys < 6)
    (hmem : 3 ∉ activeSlice s) (hslot : s.report[2 + s.keys]? = some 0) :
    (∀ r, tcellshiftokey r = none → ¬(65 ≤ r ∧ r ≤ 90) → tcelltoev r = 0 →
      produceEvents r false = [keyDown 0, keyUp 0]) ∧
    (∀ r, tcellctrltoev r = 0 →
      produceEvents r true =
        [⟨EvKeys, 29, 1⟩, keyDown 0, keyUp 0, ⟨EvKeys, 29, 0⟩]) ∧
    mapping[(0 : Nat)]? = some 3 ∧
    updateReport s (keyDown 0) =
      some ⟨s.report.set (2 + s.keys) 3, s.keys + 1⟩ ∧
    applyEvents s [keyDown 0, keyUp 0] = some s := by
  have hm0 : mapping[(0 : Nat)]? = some 3 := by decide
  have hd : updateReport s (keyDown 0) =
      some ⟨s.report.set (2 + s.keys) 3, s.keys + 1⟩ :=
    updateReport_down_insert (show kb_mod 0 = 0 by decide) hm0 (by decide) hk
      (findKeyPos_eq_none hmem)
  refine ⟨?_, ?_, hm0, hd, ?_⟩
  · intro r hshift hupper hbase
    simp [produceEvents, hshift, hupper, hbase, keyDown, keyUp]
  · intro r hctrl
    simp [produceEvents, hctrl, keyDown, keyUp]
  have hal : (activeSlice s).length = s.keys := by
    show ((s.report.drop 2).take s.keys).length = s.keys
    rw [List.length_take, List.length_drop, hlen]
    omega
  have hlt2 : ((s.report.drop 2).take s.keys).length = s.keys := by
    rw [List.length_take, List.length_drop, hlen]
    omega
  have hsl : activeSlice ⟨s.report.set (2 + s.keys) 3, s.keys + 1⟩ =
      activeSlice s ++ [3] := by
    show ((s.report.set (2 + s.keys) 3).drop 2).take (s.keys + 1) =
      (s.report.drop 2).take s.keys ++ [3]
    rw [List.drop_set, if_neg (by omega)]
    have h2 : 2 + s.keys - 2 = s.keys := by omega
    rw [h2, List.set_take, List.take_succ]
    have h3 : (s.report.drop 2)[s.keys]? = some 0 := by
      rw [List.getElem?_drop]
      exact hslot
    rw [h3, List.set_append_right _ _ (le_of_eq hlt2), hlt2]
    simp
  have hfind2 : findKeyPos 3
      (activeSlice ⟨s.report.set (2 + s.keys) 3, s.keys + 1⟩) = some s.keys := by
    rw [hsl, findKeyPos_append_self hmem, hal]
  have hu : updateReport ⟨s.report.set (2 + s.keys) 3, s.keys + 1⟩ (keyUp 0) =
      some s := by
    rw [updateReport_up_found (s := ⟨s.report.set (2 + s.keys) 3, s.keys + 1⟩)
      (show kb_mod 0 = 0 by decide) hm0 (by decide)
      (by show s.keys + 1 ≤ 6; omega) hfind2]
    show some (⟨_, s.keys + 1 - 1⟩ : UsbHid) = some s
    have e1 : s.keys + 1 + 1 = 2 + s.keys := by omega
    have e2 : s.keys + 2 = 2 + s.keys := by omega
    simp only [e1, e2]
    have e3 : (s.report.set (2 + s.keys) 3).getD (2 + s.keys) 0 = 3 := by
      rw [List.getD_eq_getElem?_getD,
        List.getElem?_set_self (by rw [hlen]; omega)]
      rfl
    rw [e3, List.set_set, List.set_set, set_of_getElem?_eq hslot]
    rfl
  simp only [applyEvents, hd, hu]

/-- C3 witness: the amended theorem applied at the zeroed state, with the
producer conjuncts instantiated at the table-miss runes 126 (a tilde, no
control) and 27 (escape, with control held). -/
theorem c3_unmapped_pair_net_noop_witness :
    produceEvents 126 false = [keyDown 0, keyUp 0] ∧
    produceEvents 27 true =
      [⟨EvKeys, 29, 1⟩, keyDown 0, keyUp 0, ⟨EvKeys, 29, 0⟩] ∧
    mapping[(0 : Nat)]? = some 3 ∧
    updateReport initState (keyDown 0) =
      some ⟨initState.report.set (2 + initState.keys) 3, initState.keys + 1⟩ ∧
    applyEvents initState [keyDown 0, keyUp 0] = some initState := by
  have h := c3_unmapped_pair_net_noop initState (by decide) (by decide)
    (by decide) (by decide)
  exact ⟨h.1 126 (by decide) (by decide) (by decide), h.2.1 27 (by decide),
    h.2.2.1, h.2.2.2.1, h.2.2.2.2⟩

/-- C9: when a device write accepts fewer than 8 bytes the worker loop
terminates at once — no flush, no retry, and the remaining events are never
processed; otherwise every processed event produces exactly one full 8-byte
write followed by one flush before the next event is taken. -/
theorem c9_short_write_fatal :
    (∀ (hid : UsbHid) (accept : Nat → Nat) (ev : Event) (rest : List Event)
        (k : Nat),
        accept k ≠ 8 →
        eventWriter hid accept (ev :: rest) k =
          (updateReport hid ev).map (fun s => (s, [], true))) ∧
    (∀ (hid : UsbHid) (accept : Nat → Nat) (evs : List Event) (k : Nat)
        (sf : UsbHid) (fl : List (List Nat)),
        hid.report.length = 8 →
        eventWriter hid accept evs k = some (sf, fl, false) →
        fl.length = evs.length ∧ ∀ r ∈ fl, r.length = 8) := by
  constructor
  · intro hid accept ev rest k hk
    cases h : updateReport hid ev with
    | none => simp [eventWriter, h]
    | some s => simp [eventWriter, h, hk]
  · intro hid accept evs
    induction evs generalizing hid with
    | nil =>
      intro k sf fl hlen h
      simp only [eventWriter, Option.some.injEq, Prod.mk.injEq] at h
      obtain ⟨-, h2, -⟩ := h
      simp [← h2]
    | cons ev rest ih =>
      intro k sf fl hlen h
      simp only [eventWriter] at h
      split at h
      · cases h
      · rename_i s hup
        split at h
        · simp at h
        · split at h
          · cases h
          · rename_i p sf' fl' e' hrec
            simp only [Option.some.injEq, Prod.mk.injEq] at h
            obtain ⟨-, h2, h3⟩ := h
            subst h3
            have hslen : s.report.length = 8 := by
              rw [updateReport_length hup, hlen]
            have hr := ih s (k + 1) sf' fl' hslen hrec
            rw [← h2]
            refine ⟨by simp [hr.1], ?_⟩
            intro r hrr
            rcases List.mem_cons.mp hrr with hrr | hrr
            · rw [hrr]; exact hslen
            · exact hr.2 r hrr

/-- C9 witness: both parts applied concretely — a device accepting 0 bytes
stops the loop after one event with no flush; a device accepting 8 bytes
flushes one 8-byte report for the one event. -/
theorem c9_short_write_fatal_witness :
    eventWriter initState (fun _ => 0) [keyDown 2] 0 =
      some (⟨[0, 0, 30, 0, 0, 0, 0, 0], 1⟩, [], true) ∧
    (1 : Nat) = 1 ∧
    (∀ r ∈ ([[0, 0, 30, 0, 0, 0, 0, 0]] : List (List Nat)), r.length = 8) := by
  refine ⟨?_, ?_, ?_⟩
  · rw [c9_short_write_fatal.1 initState (fun _ => 0) (keyDown 2) [] 0 (by decide)]
    decide
  · have h := c9_short_write_fatal.2 initState (fun _ => 8) [keyDown 2] 0
      ⟨[0, 0, 30, 0, 0, 0, 0, 0], 1⟩ [[0, 0, 30, 0, 0, 0, 0, 0]]
      (by decide) (by decide)
    exact h.1
  · exact (c9_short_write_fatal.2 initState (fun _ => 8) [keyDown 2] 0
      ⟨[0, 0, 30, 0, 0, 0, 0, 0], 1⟩ [[0, 0, 30, 0, 0, 0, 0, 0]]
      (by decide) (by decide)).2

/-- C10: an event whose type is not `EvKeys` leaves the state completely
unchanged, yet the worker still writes and flushes the unchanged 8-byte
report exactly as for key events. -/
theorem c10_nonkey_event_passthrough (s : UsbHid) (ev : Event)
    (h : ev.type ≠ EvKeys) :
    updateReport s ev = some s ∧
    ∀ (accept : Nat → Nat) (rest : List Event) (k : Nat), accept k = 8 →
      eventWriter s accept (ev :: rest) k =
        (eventWriter s accept rest (k + 1)).map
          (fun p => (p.1, s.report :: p.2.1, p.2.2)) := by
  have hup : updateReport s ev = some s := by simp [updateReport, h]
  refine ⟨hup, ?_⟩
  intro accept rest k hk
  simp only [eventWriter, hup]
  rw [if_neg (by simp [hk])]
  cases hrec : eventWriter s accept rest (k + 1) with
  | none => rfl
  | some p => obtain ⟨a, b, c⟩ := p; rfl

/-- C10 witness: a mouse-type event (type 2) in the zeroed state: the state
is unchanged and the unchanged report is still flushed. -/
theorem c10_nonkey_event_passthrough_witness :
    updateReport initState ⟨2, 0, 0⟩ = some initState ∧
    eventWriter initState (fun _ => 8) [⟨2, 0, 0⟩] 0 =
      some (initState, [initState.report], false) := by
  have h := c10_nonkey_event_passthrough initState ⟨2, 0, 0⟩ (by decide)
  refine ⟨h.1, ?_⟩
  rw [h.2 (fun _ => 8) [] 0 rfl]
  rfl

end Hidg

namespace Hidg

/-! ## The report-state invariant -/

theorem getD_eq_getElem {l : List Nat} {i : Nat} (h : i < l.length) :
    l.getD i 0 = l[i] := by
  rw [List.getD_eq_getElem?_getD, List.getElem?_eq_getElem h]
  rfl

theorem getD_set_self {l : List Nat} {i a : Nat} (h : i < l.length) :
    (l.set i a).getD i 0 = a := by
  rw [List.getD_eq_getElem?_getD, List.getElem?_set_self h]
  rfl

theorem getD_set_ne {l : List Nat} {i j a : Nat} (h : i ≠ j) :
    (l.set i a).getD j 0 = l.getD j 0 := by
  rw [List.getD_eq_getElem?_getD, List.getElem?_set_ne h,
    ← List.getD_eq_getElem?_getD]

theorem not_mem_of_findKeyPos_eq_none {u : Nat} {l : List Nat}
    (h : findKeyPos u l = none) : u ∉ l := by
  induction l with
  | nil => simp
  | cons c rest ih =>
    simp only [findKeyPos] at h
    split at h
    · cases h
    · rename_i hc
      simp only [Option.map_eq_none'] at h
      simp [List.mem_cons, ih h, Ne.symm hc]

theorem inv_initState : Inv initState := by
  refine ⟨rfl, by decide, rfl, ?_, ?_, by decide⟩
  · intro i hi
    simp [initState] at hi
  · intro i hge hlt
    interval_cases i <;> decide

theorem activeSlice_getElem? {s : UsbHid} {i : Nat} (hi : i < s.keys) :
    (activeSlice s)[i]? = s.report[2 + i]? := by
  show ((s.report.drop 2).take s.keys)[i]? = s.report[2 + i]?
  rw [List.getElem?_take_of_lt hi, List.getElem?_drop]

theorem activeSlice_length {s : UsbHid} (hlen : s.report.length = 8)
    (hk : s.keys ≤ 6) : (activeSlice s).length = s.keys := by
  show ((s.report.drop 2).take s.keys).length = s.keys
  rw [List.length_take, List.length_drop, hlen]
  omega

theorem mem_activeSlice_ne_zero {s : UsbHid} (hinv : Inv s) {b : Nat}
    (hb : b ∈ activeSlice s) : b ≠ 0 := by
  obtain ⟨hlen, hk, -, hnz, -, -⟩ := hinv
  obtain ⟨i, hi⟩ := List.mem_iff_getElem?.mp hb
  have hlt : i < (activeSlice s).length := by
    by_contra hge
    rw [List.getElem?_eq_none (by omega)] at hi
    cases hi
  have hik : i < s.keys := by
    rw [activeSlice_length hlen hk] at hlt
    exact hlt
  rw [activeSlice_getElem? hik] at hi
  have hv : s.report.getD (2 + i) 0 = b := by
    rw [List.getD_eq_getElem?_getD, hi]
    rfl
  rw [← hv]
  exact hnz i hik

end Hidg

namespace Hidg

/-- Inserting at the first free slot appends to the active slice. -/
theorem activeSlice_insert {s : UsbHid} {u : Nat} (hlen : s.report.length = 8)
    (hk : s.keys < 6) (hslot : s.report[2 + s.keys]? = some 0) :
    activeSlice ⟨s.report.set (2 + s.keys) u, s.keys + 1⟩ =
      activeSlice s ++ [u] := by
  have hlt2 : ((s.report.drop 2).take s.keys).length = s.keys := by
    rw [List.length_take, List.length_drop, hlen]
    omega
  show ((s.report.set (2 + s.keys) u).drop 2).take (s.keys + 1) =
    (s.report.drop 2).take s.keys ++ [u]
  rw [List.drop_set, if_neg (by omega)]
  have h2 : 2 + s.keys - 2 = s.keys := by omega
  rw [h2, List.set_take, List.take_succ]
  have h3 : (s.report.drop 2)[s.keys]? = some 0 := by
    rw [List.getElem?_drop]
    exact hslot
  rw [h3, List.set_append_right _ _ (le_of_eq hlt2), hlt2]
  simp

/-- Overwriting the last slot at capacity replaces the last element of the
active slice. -/
theorem activeSlice_overflow {s : UsbHid} {u : Nat} :
    activeSlice ⟨s.report.set 7 u, s.keys⟩ = (activeSlice s).set 5 u := by
  show ((s.report.set 7 u).drop 2).take s.keys =
    ((s.report.drop 2).take s.keys).set 5 u
  rw [List.drop_set, if_neg (by omega)]
  rw [show (7 : Nat) - 2 = 5 from rfl, List.set_take]

/-- Swap-removal truncates the active slice and overwrites the found slot
with the value from the last active slot. -/
theorem activeSlice_remove {s : UsbHid} {j : Nat}
    (hk : s.keys ≤ 6) (hj : j < s.keys) :
    activeSlice ⟨(s.report.set (j + 2) (s.report.getD (s.keys + 1) 0)).set
        (s.keys + 1) 0, s.keys - 1⟩ =
      ((s.report.drop 2).take (s.keys - 1)).set j
        (s.report.getD (s.keys + 1) 0) := by
  show (((s.report.set (j + 2) (s.report.getD (s.keys + 1) 0)).set
      (s.keys + 1) 0).drop 2).take (s.keys - 1) = _
  rw [List.drop_set (m := s.keys + 1), if_neg (by omega)]
  rw [List.drop_set (m := j + 2), if_neg (by omega)]
  have e1 : s.keys + 1 - 2 = s.keys - 1 := by omega
  have e2 : j + 2 - 2 = j := by omega
  rw [e1, e2, List.set_take, List.set_take, List.set_eq_of_length_le]
  rw [List.length_set, List.length_take]
  omega

/-- Replacing one element of a duplicate-free list by a value that occurs
nowhere in it keeps it duplicate-free. -/
theorem nodup_set_of_not_mem {l : List Nat} {j w : Nat}
    (hnd : l.Nodup) (hw : w ∉ l) : (l.set j w).Nodup := by
  by_cases hj : j < l.length
  · have hl : l = l.take j ++ l[j] :: l.drop (j + 1) := by
      conv_lhs => rw [← List.take_append_drop j l]
      rw [List.drop_eq_getElem_cons hj]
    rw [List.set_eq_take_cons_drop _ hj]
    rw [hl, List.nodup_middle] at hnd
    rw [List.nodup_middle, List.nodup_cons]
    rw [List.nodup_cons] at hnd
    refine ⟨?_, hnd.2⟩
    intro hmem
    apply hw
    rw [hl]
    rcases List.mem_append.mp hmem with hm | hm
    · exact List.mem_append.mpr (Or.inl hm)
    · exact List.mem_append.mpr (Or.inr (List.mem_cons_of_mem _ hm))
  · rw [List.set_eq_of_length_le (Nat.le_of_not_lt hj)]
    exact hnd

end Hidg

namespace Hidg

/-- Modifier events only touch byte 0 and preserve the invariant. -/
theorem inv_set_byte0 {s : UsbHid} (v : Nat) (hinv : Inv s) :
    Inv ⟨s.report.set 0 v, s.keys⟩ := by
  obtain ⟨hlen, hk, h1, hnz, hz, hnd⟩ := hinv
  have hdrop : (s.report.set 0 v).drop 2 = s.report.drop 2 := by
    rw [List.drop_set, if_pos (by omega)]
  refine ⟨by simp [hlen], hk, ?_, ?_, ?_, ?_⟩
  · show (s.report.set 0 v).getD 1 0 = 0
    rw [getD_set_ne (by omega)]
    exact h1
  · intro i hi
    replace hi : i < s.keys := hi
    show (s.report.set 0 v).getD (2 + i) 0 ≠ 0
    rw [getD_set_ne (by omega)]
    exact hnz i hi
  · intro i hge hlt
    replace hge : s.keys ≤ i := hge
    replace hlt : i < 6 := hlt
    show (s.report.set 0 v).getD (2 + i) 0 = 0
    rw [getD_set_ne (by omega)]
    exact hz i hge hlt
  · show (((s.report.set 0 v).drop 2).take s.keys).Nodup
    rw [hdrop]
    exact hnd

/-- Inserting a fresh non-zero usage ID at the first free slot preserves
the invariant. -/
theorem inv_insert {s : UsbHid} {u : Nat} (hinv : Inv s) (hu : u ≠ 0)
    (hk : s.keys < 6) (hmem : u ∉ activeSlice s) :
    Inv ⟨s.report.set (2 + s.keys) u, s.keys + 1⟩ := by
  obtain ⟨hlen, hk6, h1, hnz, hz, hnd⟩ := hinv
  have hslot : s.report[2 + s.keys]? = some 0 := by
    have h0 : s.report.getD (2 + s.keys) 0 = 0 := hz s.keys (Nat.le_refl _) hk
    rw [getD_eq_getElem (by omega)] at h0
    rw [List.getElem?_eq_getElem (by omega), h0]
  refine ⟨by simp [hlen], by show s.keys + 1 ≤ 6; omega, ?_, ?_, ?_, ?_⟩
  · show (s.report.set (2 + s.keys) u).getD 1 0 = 0
    rw [getD_set_ne (by omega)]
    exact h1
  · intro i hi
    replace hi : i < s.keys + 1 := hi
    show (s.report.set (2 + s.keys) u).getD (2 + i) 0 ≠ 0
    rcases Nat.lt_or_ge i s.keys with hik | hik
    · rw [getD_set_ne (by omega)]
      exact hnz i hik
    · have : i = s.keys := by omega
      subst this
      rw [getD_set_self (by omega)]
      exact hu
  · intro i hge hlt
    replace hge : s.keys + 1 ≤ i := hge
    replace hlt : i < 6 := hlt
    show (s.report.set (2 + s.keys) u).getD (2 + i) 0 = 0
    rw [getD_set_ne (by omega)]
    exact hz i (by omega) hlt
  · rw [activeSlice_insert hlen hk hslot]
    rw [List.nodup_append]
    exact ⟨hnd, List.nodup_singleton _, by
      intro a ha hb
      rw [List.mem_singleton] at hb
      subst hb
      exact hmem ha⟩

/-- Overwriting the last slot at capacity with a fresh non-zero usage ID
preserves the invariant. -/
theorem inv_overflow {s : UsbHid} {u : Nat} (hinv : Inv s) (hu : u ≠ 0)
    (hk : s.keys = 6) (hmem : u ∉ activeSlice s) :
    Inv ⟨s.report.set 7 u, s.keys⟩ := by
  obtain ⟨hlen, hk6, h1, hnz, hz, hnd⟩ := hinv
  refine ⟨by simp [hlen], hk6, ?_, ?_, ?_, ?_⟩
  · show (s.report.set 7 u).getD 1 0 = 0
    rw [getD_set_ne (by omega)]
    exact h1
  · intro i hi
    replace hi : i < s.keys := hi
    show (s.report.set 7 u).getD (2 + i) 0 ≠ 0
    rcases Nat.lt_or_ge i 5 with h5 | h5
    · rw [getD_set_ne (by omega)]
      exact hnz i hi
    · have hi5 : i = 5 := by omega
      subst hi5
      show (s.report.set 7 u).getD 7 0 ≠ 0
      rw [getD_set_self (by rw [hlen]; omega)]
      exact hu
  · intro i hge hlt
    replace hge : s.keys ≤ i := hge
    replace hlt : i < 6 := hlt
    omega
  · rw [activeSlice_overflow]
    exact nodup_set_of_not_mem hnd hmem

/-- Swap-removal of the key at slot `j` preserves the invariant. -/
theorem inv_remove {s : UsbHid} {j : Nat} (hinv : Inv s) (hj : j < s.keys) :
    Inv ⟨(s.report.set (j + 2) (s.report.getD (s.keys + 1) 0)).set
        (s.keys + 1) 0, s.keys - 1⟩ := by
  obtain ⟨hlen, hk6, h1, hnz, hz, hnd⟩ := hinv
  have hw : s.report.getD (s.keys + 1) 0 ≠ 0 := by
    have h := hnz (s.keys - 1) (by omega)
    have e : 2 + (s.keys - 1) = s.keys + 1 := by omega
    rwa [e] at h
  refine ⟨by simp [hlen], by show s.keys - 1 ≤ 6; omega, ?_, ?_, ?_, ?_⟩
  · show ((s.report.set (j + 2) (s.report.getD (s.keys + 1) 0)).set
      (s.keys + 1) 0).getD 1 0 = 0
    rw [getD_set_ne (by omega), getD_set_ne (by omega)]
    exact h1
  · intro i hi
    replace hi : i < s.keys - 1 := hi
    show ((s.report.set (j + 2) (s.report.getD (s.keys + 1) 0)).set
      (s.keys + 1) 0).getD (2 + i) 0 ≠ 0
    rw [getD_set_ne (by omega)]
    rcases eq_or_ne i j with rfl | hij
    · have e : 2 + i = i + 2 := by omega
      rw [e, getD_set_self (by rw [hlen]; omega)]
      exact hw
    · rw [getD_set_ne (by omega)]
      exact hnz i (by omega)
  · intro i hge hlt
    replace hge : s.keys - 1 ≤ i := hge
    replace hlt : i < 6 := hlt
    show ((s.report.set (j + 2) (s.report.getD (s.keys + 1) 0)).set
      (s.keys + 1) 0).getD (2 + i) 0 = 0
    rcases eq_or_ne i (s.keys - 1) with rfl | hik
    · have e : 2 + (s.keys - 1) = s.keys + 1 := by omega
      rw [e, getD_set_self (by rw [List.length_set, hlen]; omega)]
    · rw [getD_set_ne (by omega), getD_set_ne (by omega)]
      exact hz i (by omega) hlt
  · rw [activeSlice_remove hk6 hj]
    have e : s.keys = (s.keys - 1) + 1 := by omega
    have hA : activeSlice s =
        (s.report.drop 2).take (s.keys - 1) ++
          [s.report.getD (s.keys + 1) 0] := by
      show (s.report.drop 2).take s.keys = _
      conv_lhs => rw [e]
      rw [List.take_succ]
      congr 1
      rw [List.getElem?_drop]
      have e2 : 2 + (s.keys - 1) = s.keys + 1 := by omega
      rw [e2, List.getElem?_eq_getElem (by omega),
        ← getD_eq_getElem (by omega)]
      rfl
    rw [hA, List.nodup_append] at hnd
    obtain ⟨hT, -, hdisj⟩ := hnd
    apply nodup_set_of_not_mem hT
    intro hmem
    exact hdisj hmem (List.mem_singleton_self _)

end Hidg

namespace Hidg

/-- `updateReport` preserves the invariant whenever it does not panic. -/
theorem inv_preserved {s s' : UsbHid} {ev : Event} (hinv : Inv s)
    (h : updateReport s ev = some s') : Inv s' := by
  have hlen := hinv.1
  have hk := hinv.2.1
  unfold updateReport at h
  split at h
  · split at h
    · split at h <;> (injection h with h; subst h; exact inv_set_byte0 _ hinv)
    · split at h
      · cases h
      · rename_i u hmap
        split at h
        · injection h with h
          subst h
          exact hinv
        · rename_i hu0
          split at h
          · cases h
          · split at h
            · rename_i keyPos hfind
              split at h
              · have hj : keyPos < s.keys := by
                  have hlt := findKeyPos_some_lt hfind
                  rwa [activeSlice_length hlen hk] at hlt
                simp only [if_pos hj] at h
                injection h with h
                subst h
                exact inv_remove hinv hj
              · injection h with h
                subst h
                exact hinv
            · rename_i hfind
              have hmem : u ∉ activeSlice s :=
                not_mem_of_findKeyPos_eq_none hfind
              split at h
              · rename_i hklt
                injection h with h
                subst h
                exact inv_insert hinv hu0 hklt hmem
              · rename_i hkge
                injection h with h
                subst h
                have hk6 : s.keys = 6 := by omega
                exact inv_overflow hinv hu0 hk6 hmem
  · injection h with h
    subst h
    exact hinv

/-- The invariant is preserved along any event sequence. -/
theorem applyEvents_inv {evs : List Event} {t s : UsbHid}
    (hinv : Inv t) (h : applyEvents t evs = some s) : Inv s := by
  induction evs generalizing t with
  | nil =>
    simp only [applyEvents, Option.some.injEq] at h
    subst h
    exact hinv
  | cons ev rest ih =>
    simp only [applyEvents] at h
    split at h
    · cases h
    · rename_i s₁ hup
      exact ih (inv_preserved hinv hup) h

/-- Bytes past the active slots are all zero in an invariant state. -/
theorem mem_tail_zero {s : UsbHid} (hinv : Inv s) {b : Nat}
    (hb : b ∈ (s.report.drop 2).drop s.keys) : b = 0 := by
  obtain ⟨hlen, hk, -, -, hz, -⟩ := hinv
  obtain ⟨i, hi⟩ := List.mem_iff_getElem?.mp hb
  have hlt : i < ((s.report.drop 2).drop s.keys).length := by
    by_contra hge
    rw [List.getElem?_eq_none (by omega)] at hi
    cases hi
  have hlen2 : ((s.report.drop 2).drop s.keys).length = 6 - s.keys := by
    rw [List.length_drop, List.length_drop, hlen]
  rw [List.getElem?_drop, List.getElem?_drop] at hi
  have hb0 : s.report.getD (2 + (s.keys + i)) 0 = b := by
    rw [List.getD_eq_getElem?_getD, hi]
    rfl
  rw [← hb0]
  exact hz (s.keys + i) (by omega) (by omega)

/-- C8: every state reachable from the zeroed state by apply operations
satisfies the ReportState invariant: `activeKeys ≤ 6` and equal to the
number of non-zero bytes among bytes 2–7, every non-zero byte among 2–7
lies in the contiguous prefix `[2, 2+activeKeys)`, and byte 1 is 0. -/
theorem c8_state_invariant (evs : List Event) (s : UsbHid)
    (h : applyEvents initState evs = some s) :
    s.keys ≤ 6 ∧
    (s.report.drop 2).countP (fun b => decide (b ≠ 0)) = s.keys ∧
    (∀ i, 2 ≤ i → i < 8 → s.report.getD i 0 ≠ 0 → i < 2 + s.keys) ∧
    s.report.getD 1 0 = 0 := by
  have hinv := applyEvents_inv inv_initState h
  obtain ⟨hlen, hk, h1, hnz, hz, hnd⟩ := hinv
  refine ⟨hk, ?_, ?_, h1⟩
  · conv_lhs => rw [← List.take_append_drop s.keys (s.report.drop 2)]
    rw [List.countP_append]
    have hA : ((s.report.drop 2).take s.keys).countP
        (fun b => decide (b ≠ 0)) = s.keys := by
      have he : ((s.report.drop 2).take s.keys).countP
          (fun b => decide (b ≠ 0)) =
          ((s.report.drop 2).take s.keys).length := by
        rw [List.countP_eq_length]
        intro a ha
        have hne : a ≠ 0 :=
          mem_activeSlice_ne_zero ⟨hlen, hk, h1, hnz, hz, hnd⟩ ha
        simpa using hne
      rw [he]
      exact activeSlice_length hlen hk
    have hB : ((s.report.drop 2).drop s.keys).countP
        (fun b => decide (b ≠ 0)) = 0 := by
      rw [List.countP_eq_zero]
      intro a ha
      have ha0 : a = 0 := mem_tail_zero ⟨hlen, hk, h1, hnz, hz, hnd⟩ ha
      simp [ha0]
    rw [hA, hB]
    omega
  · intro i h2 h8 hne
    by_contra hge
    apply hne
    have e : i = 2 + (i - 2) := by omega
    rw [e]
    exact hz (i - 2) (by omega) (by omega)

/-- C8 witness: the invariant theorem applied to the state reached by a
single `Down` of code 2 (usage 30), with the prefix conjunct instantiated
at byte index 2. -/
theorem c8_state_invariant_witness :
    (⟨[0, 0, 30, 0, 0, 0, 0, 0], 1⟩ : UsbHid).keys ≤ 6 ∧
    ((⟨[0, 0, 30, 0, 0, 0, 0, 0], 1⟩ : UsbHid).report.drop 2).countP
      (fun b => decide (b ≠ 0)) = 1 ∧
    (2 : Nat) < 2 + (⟨[0, 0, 30, 0, 0, 0, 0, 0], 1⟩ : UsbHid).keys ∧
    (⟨[0, 0, 30, 0, 0, 0, 0, 0], 1⟩ : UsbHid).report.getD 1 0 = 0 := by
  have h := c8_state_invariant [keyDown 2] ⟨[0, 0, 30, 0, 0, 0, 0, 0], 1⟩
    (by decide)
  exact ⟨h.1, h.2.1, h.2.2.1 2 (by decide) (by decide) (by decide), h.2.2.2⟩

end Hidg

namespace Hidg

/-- Replacing one occurrence of `u` by `w` and dropping the final `w` is,
as a multiset, removal of one `u`. -/
theorem multiset_swap_cancel (a b : List Nat) (u w : Nat) :
    ((a ++ w :: b : List Nat) : Multiset Nat) =
      (((a ++ u :: b) ++ [w] : List Nat) : Multiset Nat) - {u} := by
  have key : (((a ++ u :: b) ++ [w] : List Nat) : Multiset Nat) =
      {u} + ((a ++ w :: b : List Nat) : Multiset Nat) := by
    simp only [← Multiset.coe_add, ← Multiset.cons_coe,
      ← Multiset.singleton_add, Multiset.coe_nil]
    abel
  rw [key, add_tsub_cancel_left]

/-- C6: in a reachable state, an `Up` for a key whose usage ID sits at an
active slot `j` other than the last removes it by swap-with-last: the value
of the last active slot `2+keys-1` is copied into slot `j+2`, the last
active slot is zeroed, `keys` drops by exactly 1, and the multiset of
non-zero bytes among bytes 2–7 is the original minus the released usage
ID. -/
theorem c6_swap_remove (evs : List Event) (s : UsbHid) (c u j : Nat)
    (hreach : applyEvents initState evs = some s)
    (hmod : kb_mod c = 0) (hmap : mapping[c]? = some u)
    (hfind : findKeyPos u (activeSlice s) = some j)
    (hlast : j + 1 < s.keys) :
    updateReport s (keyUp c) =
      some ⟨(s.report.set (j + 2) (s.report.getD (s.keys + 1) 0)).set
          (s.keys + 1) 0, s.keys - 1⟩ ∧
    pressedUsages ⟨(s.report.set (j + 2) (s.report.getD (s.keys + 1) 0)).set
          (s.keys + 1) 0, s.keys - 1⟩ = pressedUsages s - {u} := by
  have hinv := applyEvents_inv inv_initState hreach
  obtain ⟨hlen, hk, h1, hnz, hz, hnd⟩ := hinv
  have hfj := findKeyPos_some_getElem hfind
  have humem : u ∈ activeSlice s := List.mem_iff_getElem?.mpr ⟨j, hfj⟩
  have hune : u ≠ 0 :=
    mem_activeSlice_ne_zero ⟨hlen, hk, h1, hnz, hz, hnd⟩ humem
  refine ⟨updateReport_up_found hmod hmap hune hk hfind, ?_⟩
  have hw : s.report.getD (s.keys + 1) 0 ≠ 0 := by
    have h := hnz (s.keys - 1) (by omega)
    have e : 2 + (s.keys - 1) = s.keys + 1 := by omega
    rwa [e] at h
  -- opaque decomposition of the key area
  obtain ⟨T, post, hA, hTlen, hTnz, hpost, hTj⟩ :
      ∃ T post, s.report.drop 2 = T ++ (s.report.getD (s.keys + 1) 0 :: post) ∧
        T.length = s.keys - 1 ∧ (∀ x ∈ T, x ≠ 0) ∧ (∀ x ∈ post, x = 0) ∧
        T[j]? = some u := by
    refine ⟨(s.report.drop 2).take (s.keys - 1), (s.report.drop 2).drop s.keys,
      ?_, ?_, ?_, ?_, ?_⟩
    · conv_lhs => rw [← List.take_append_drop (s.keys - 1) (s.report.drop 2)]
      congr 1
      rw [List.drop_eq_getElem_cons (by rw [List.length_drop, hlen]; omega)]
      have e3 : s.keys - 1 + 1 = s.keys := by omega
      rw [e3]
      congr 1
      rw [← getD_eq_getElem (by rw [List.length_drop, hlen]; omega)]
      rw [List.getD_eq_getElem?_getD, List.getElem?_drop]
      have e6 : 2 + (s.keys - 1) = s.keys + 1 := by omega
      rw [e6, ← List.getD_eq_getElem?_getD]
    · rw [List.length_take, List.length_drop, hlen]
      omega
    · intro x hx
      have hx2 : x ∈ activeSlice s := by
        have e4 : (s.report.drop 2).take (s.keys - 1) =
            ((s.report.drop 2).take s.keys).take (s.keys - 1) := by
          rw [List.take_take, Nat.min_def, if_pos (by omega)]
        rw [e4] at hx
        exact List.mem_of_mem_take hx
      exact mem_activeSlice_ne_zero ⟨hlen, hk, h1, hnz, hz, hnd⟩ hx2
    · intro x hx
      exact mem_tail_zero ⟨hlen, hk, h1, hnz, hz, hnd⟩ hx
    · rw [List.getElem?_take_of_lt (by omega)]
      rw [← List.getElem?_take_of_lt (show j < s.keys by omega)]
      exact hfj
  have hjT : j < T.length := by omega
  -- the new key area
  have hdrop : ((s.report.set (j + 2) (s.report.getD (s.keys + 1) 0)).set
      (s.keys + 1) 0).drop 2 =
      ((s.report.drop 2).set j (s.report.getD (s.keys + 1) 0)).set
        (s.keys - 1) 0 := by
    rw [List.drop_set (m := s.keys + 1), if_neg (by omega),
        List.drop_set (m := j + 2), if_neg (by omega)]
    have e1 : s.keys + 1 - 2 = s.keys - 1 := by omega
    have e2 : j + 2 - 2 = j := by omega
    rw [e1, e2]
  -- split T around index j
  obtain ⟨a, b, hTab, hTset⟩ :
      ∃ a b, T = a ++ u :: b ∧
        T.set j (s.report.getD (s.keys + 1) 0) =
          a ++ s.report.getD (s.keys + 1) 0 :: b := by
    refine ⟨T.take j, T.drop (j + 1), ?_, ?_⟩
    · conv_lhs => rw [← List.take_append_drop j T]
      congr 1
      rw [List.drop_eq_getElem_cons hjT]
      congr 1
      have := hTj
      rw [List.getElem?_eq_getElem hjT] at this
      exact (Option.some.injEq _ _).mp this
    · rw [List.set_eq_take_cons_drop _ hjT]
  -- membership facts for the two halves of T
  have hanz : ∀ x ∈ a, x ≠ 0 := fun x hx =>
    hTnz x (by rw [hTab]; exact List.mem_append.mpr (Or.inl hx))
  have hbnz : ∀ x ∈ b, x ≠ 0 := fun x hx =>
    hTnz x
      (by rw [hTab]
          exact List.mem_append.mpr (Or.inr (List.mem_cons_of_mem _ hx)))
  -- the new key area, filtered
  have hnew : (((s.report.set (j + 2) (s.report.getD (s.keys + 1) 0)).set
      (s.keys + 1) 0).drop 2).filter (fun x => decide (x ≠ 0)) =
      a ++ s.report.getD (s.keys + 1) 0 :: b := by
    rw [hdrop, hA]
    rw [List.set_append_left _ _ (by omega)]
    rw [List.set_append_right _ _ (by rw [List.length_set]; omega)]
    have e5 : s.keys - 1 -
        (T.set j (s.report.getD (s.keys + 1) 0)).length = 0 := by
      rw [List.length_set]
      omega
    rw [e5, List.set_cons_zero, hTset, List.filter_append]
    rw [List.filter_eq_self.mpr ?hall, List.filter_eq_nil_iff.mpr ?hnil,
      List.append_nil]
    case hall =>
      intro x hx
      rcases List.mem_append.mp hx with hx | hx
      · simpa using hanz x hx
      · rcases List.mem_cons.mp hx with hx | hx
        · subst hx
          simpa using hw
        · simpa using hbnz x hx
    case hnil =>
      intro x hx
      rcases List.mem_cons.mp hx with hx | hx
      · subst hx
        simp
      · simp [hpost x hx]
  -- the original key area, filtered
  have hold : (s.report.drop 2).filter (fun x => decide (x ≠ 0)) =
      (a ++ u :: b) ++ [s.report.getD (s.keys + 1) 0] := by
    rw [hA, hTab, List.filter_append]
    rw [List.filter_eq_self.mpr ?hall2, List.filter_cons_of_pos (by simpa using hw),
      List.filter_eq_nil_iff.mpr ?hnil2]
    case hall2 =>
      intro x hx
      rcases List.mem_append.mp hx with hx | hx
      · simpa using hanz x hx
      · rcases List.mem_cons.mp hx with hx | hx
        · subst hx
          simpa using hune
        · simpa using hbnz x hx
    case hnil2 =>
      intro x hx
      simp [hpost x hx]
  show ((((s.report.set (j + 2) (s.report.getD (s.keys + 1) 0)).set
      (s.keys + 1) 0).drop 2).filter (fun x => decide (x ≠ 0)) : Multiset Nat) =
    ((s.report.drop 2).filter (fun x => decide (x ≠ 0)) : Multiset Nat) - {u}
  rw [hnew, hold]
  exact multiset_swap_cancel a b u (s.report.getD (s.keys + 1) 0)

end Hidg

namespace Hidg

/-- C6 witness: the swap-remove theorem at the state reached by `Down`s of
codes 2 and 3 (usages 30, 31), releasing code 2 whose usage sits in the
first (non-last) active slot. -/
theorem c6_swap_remove_witness :
    updateReport ⟨[0, 0, 30, 31, 0, 0, 0, 0], 2⟩ (keyUp 2) =
      some ⟨[0, 0, 31, 0, 0, 0, 0, 0], 1⟩ ∧
    pressedUsages ⟨[0, 0, 31, 0, 0, 0, 0, 0], 1⟩ =
      pressedUsages ⟨[0, 0, 30, 31, 0, 0, 0, 0], 2⟩ - {30} := by
  have h := c6_swap_remove [keyDown 2, keyDown 3]
    ⟨[0, 0, 30, 31, 0, 0, 0, 0], 2⟩ 2 30 0
    (by decide) (by decide) (by decide) (by decide) (by decide)
  exact ⟨h.1, h.2⟩

end Hidg
